import Mathlib

/-!
Shallow embedding of fms_lmm.h, a LIBOR market model header: the
forward/futures curve converters, the curve advance engine, their
composition, and the par coupon pricer.

Modelling conventions.  The caller owned parallel arrays t, rate and sigma
are total functions from indices to real numbers together with an explicit
length n; the pointer advance performed by the windowing loop is an explicit
offset into those backing arrays.  The process wide random engine dre is a
stream of standard normal variates, a function from naturals to reals,
together with a cursor; one invocation of the distribution reads the value
at the cursor and advances it by one.  All arithmetic is exact real
arithmetic.
-/

noncomputable section

open MeasureTheory

namespace fms
namespace lmm

/-- One invocation of the standard normal distribution on the random engine:
it yields the stream value at the cursor and the advanced cursor. -/
def normal_draw (g : ℕ → ℝ) (c : ℕ) : ℝ × ℕ := (g c, c + 1)

/-- Convert forwards to futures, from fms_lmm.h: for i below n,
f[i] += sigma[i] * sigma[i] * t[i] * t[i] / 2; entries outside the view are
untouched. -/
def to_futures (n : ℕ) (t f sigma : ℕ → ℝ) : ℕ → ℝ :=
  fun i => if i < n then f i + sigma i * sigma i * t i * t i / 2 else f i

/-- Convert futures to forwards, from fms_lmm.h: for i below n,
phi[i] -= sigma[i] * sigma[i] * t[i] * t[i] / 2. -/
def to_forwards (n : ℕ) (t phi sigma : ℕ → ℝ) : ℕ → ℝ :=
  fun i => if i < n then phi i - sigma i * sigma i * t i * t i / 2 else phi i

/-- The windowing loop of advance_futures: while n > 0 and the leading knot
time is at most u, decrement n and advance the common pointer p.  Returns
the remaining count and the final pointer. -/
def drop_matured (u : ℝ) (t : ℕ → ℝ) : ℕ → ℕ → ℕ × ℕ
  | 0, p => (0, p)
  | n + 1, p => if t p ≤ u then drop_matured u t n (p + 1) else (n + 1, p)

/-- The rotated Brownian value B0 * cos(alpha * s) + B1 * sin(alpha * s). -/
def Bu (alpha B0 B1 s : ℝ) : ℝ :=
  B0 * Real.cos (alpha * s) + B1 * Real.sin (alpha * s)

/-- Result of a curve advance: the remaining count, the three backing
arrays after the in place mutation, the common pointer offset of the
returned views, and the random engine cursor after the call. -/
structure AdvResult where
  n : ℕ
  t : ℕ → ℝ
  phi : ℕ → ℝ
  sigma : ℕ → ℝ
  ptr : ℕ
  rng : ℕ

/-- advance_futures from fms_lmm.h: draw two normal variates from the
engine, drop matured buckets from the front, then for every surviving
bucket rebase its time by u and multiply its rate by
exp(sigma[i] * Bu - sigma[i]^2 * u / 2), where Bu uses the rebased time.
The sigma array is only read. -/
def advance_futures (u : ℝ) (n : ℕ) (t phi sigma : ℕ → ℝ) (alpha : ℝ)
    (g : ℕ → ℝ) (c : ℕ) : AdvResult :=
  let d0 := normal_draw g c
  let B0 := d0.1
  let d1 := normal_draw g d0.2
  let B1 := d1.1
  let w := drop_matured u t n 0
  { n := w.1
    t := fun j => if w.2 ≤ j ∧ j < w.2 + w.1 then t j - u else t j
    phi := fun j =>
      if w.2 ≤ j ∧ j < w.2 + w.1 then
        phi j * Real.exp (sigma j * Bu alpha B0 B1 (t j - u)
          - sigma j * sigma j * u / 2)
      else phi j
    sigma := sigma
    ptr := w.2
    rng := d1.2 }

/-- The view of a backing array starting at pointer offset p. -/
def view (p : ℕ) (a : ℕ → ℝ) : ℕ → ℝ := fun i => a (p + i)

/-- advance from fms_lmm.h: to_futures on the full curve, advance_futures,
then to_forwards on the surviving rebased view. -/
def advance (u : ℝ) (n : ℕ) (t f sigma : ℕ → ℝ) (alpha : ℝ)
    (g : ℕ → ℝ) (c : ℕ) : AdvResult :=
  let f1 := to_futures n t f sigma
  let r := advance_futures u n t f1 sigma alpha g c
  let f2 := to_forwards r.n (view r.ptr r.t) (view r.ptr r.phi)
    (view r.ptr r.sigma)
  { r with phi := fun j => if r.ptr ≤ j then f2 (j - r.ptr) else r.phi j }

/-- Spec side definition for the composition claim, following the spec
words: to_futures on the curve, then advance_futures, then to_forwards on
the curve restricted to the surviving view. -/
def advance_spec (u : ℝ) (n : ℕ) (t f sigma : ℕ → ℝ) (alpha : ℝ)
    (g : ℕ → ℝ) (c : ℕ) : AdvResult :=
  let phi1 := to_futures n t f sigma
  let r := advance_futures u n t phi1 sigma alpha g c
  let fwd := to_forwards r.n (view r.ptr r.t) (view r.ptr r.phi)
    (view r.ptr r.sigma)
  { r with phi := fun j => if r.ptr ≤ j then fwd (j - r.ptr) else r.phi j }

/-- State of the par_coupon loop after j iterations: the running discount
factor Dn, the running annuity D, and the previous knot time t0. -/
def par_loop (t f : ℕ → ℝ) : ℕ → ℝ × ℝ × ℝ
  | 0 => (1, 0, 0)
  | j + 1 =>
    let s := par_loop t f j
    let dt := t j - s.2.2
    let Dn := s.1 * Real.exp (-(f j) * dt)
    (Dn, s.2.1 + Dn * dt, t j)

/-- par_coupon from fms_lmm.h: run the bootstrap loop over the n buckets
and return (D0 - Dn) / D with D0 = 1. -/
def par_coupon (n : ℕ) (t f : ℕ → ℝ) : ℝ :=
  (1 - (par_loop t f n).1) / (par_loop t f n).2.1

/-- Previous knot time with the implicit time zero before the first knot. -/
def knot_prev (t : ℕ → ℝ) : ℕ → ℝ
  | 0 => 0
  | j + 1 => t j

/-- Discount factors as the spec words them: each discount factor is the
previous one times exp(-f[j] * (t[j] - t[j-1])), starting from 1, with the
implicit knot time zero before the first bucket.  Spec side definition for
the refinement claim about par_coupon. -/
def D_spec (t f : ℕ → ℝ) : ℕ → ℝ
  | 0 => 1
  | j + 1 => D_spec t f j * Real.exp (-(f j) * (t j - knot_prev t j))

/-- Annuity as the spec words it: the sum over buckets of the bucket
discount factor times the bucket length.  Spec side definition. -/
def annuity_spec (t f : ℕ → ℝ) (n : ℕ) : ℝ :=
  ∑ j in Finset.range n, D_spec t f (j + 1) * (t j - knot_prev t j)

/-- Expectation of a function of one standard normal variate, written as a
Lebesgue integral against the standard normal density. -/
def std_normal_E (h : ℝ → ℝ) : ℝ :=
  (∫ x : ℝ, h x * Real.exp (-(x ^ 2) / 2)) / Real.sqrt (2 * Real.pi)

/-- Iterated expectation of a function of two independent standard normal
variates. -/
def std_normal_E2 (h : ℝ → ℝ → ℝ) : ℝ :=
  std_normal_E fun x => std_normal_E fun y => h x y

/-- A random stream whose first two values are x and y. -/
def draws2 (x y : ℝ) : ℕ → ℝ := fun i => if i = 0 then x else y

/-- Concrete grid 1, 2, 3, ... used by witnesses. -/
def tW : ℕ → ℝ := fun i => (i : ℝ) + 1

/-- Concrete constant one array used by witnesses. -/
def oneW : ℕ → ℝ := fun _ => 1

/-- Concrete constant zero array used by witnesses. -/
def zeroW : ℕ → ℝ := fun _ => 0

/-- Concrete flat forward curve at five percent used by witnesses. -/
def fW : ℕ → ℝ := fun _ => 0.05

/-- Concrete random stream whose first draw is one and whose later draws
are zero, used by witnesses. -/
def gW : ℕ → ℝ := fun i => if i = 0 then 1 else 0

theorem advance_futures_eq (u : ℝ) (n : ℕ) (t phi sigma : ℕ → ℝ)
    (alpha : ℝ) (g : ℕ → ℝ) (c : ℕ) :
    advance_futures u n t phi sigma alpha g c =
      { n := (drop_matured u t n 0).1
        t := fun j =>
          if (drop_matured u t n 0).2 ≤ j ∧
              j < (drop_matured u t n 0).2 + (drop_matured u t n 0).1 then
            t j - u
          else t j
        phi := fun j =>
          if (drop_matured u t n 0).2 ≤ j ∧
              j < (drop_matured u t n 0).2 + (drop_matured u t n 0).1 then
            phi j * Real.exp (sigma j * Bu alpha (g c) (g (c + 1)) (t j - u)
              - sigma j * sigma j * u / 2)
          else phi j
        sigma := sigma
        ptr := (drop_matured u t n 0).2
        rng := c + 2 } := rfl

theorem drop_matured_le (u : ℝ) (t : ℕ → ℝ) :
    ∀ n p, (drop_matured u t n p).1 ≤ n := by
  intro n
  induction n with
  | zero => intro p; simp [drop_matured]
  | succ m ih =>
    intro p
    by_cases h : t p ≤ u
    · simp only [drop_matured, if_pos h]
      exact le_trans (ih (p + 1)) (Nat.le_succ m)
    · simp [drop_matured, if_neg h]

theorem drop_matured_ptr (u : ℝ) (t : ℕ → ℝ) :
    ∀ n p, (drop_matured u t n p).2 = p + (n - (drop_matured u t n p).1) := by
  intro n
  induction n with
  | zero => intro p; simp [drop_matured]
  | succ m ih =>
    intro p
    by_cases h : t p ≤ u
    · simp only [drop_matured, if_pos h]
      have h1 := ih (p + 1)
      have h2 := drop_matured_le u t m (p + 1)
      omega
    · simp [drop_matured, if_neg h]

theorem drop_matured_spec (u : ℝ) (t : ℕ → ℝ) :
    ∀ k n p, k ≤ n → (∀ i, i < k → t (p + i) ≤ u) →
    (k < n → u < t (p + k)) → drop_matured u t n p = (n - k, p + k) := by
  intro k
  induction k with
  | zero =>
    intro n p _ _ hhigh
    cases n with
    | zero => simp [drop_matured]
    | succ m =>
      have hu : u < t p := by simpa using hhigh (Nat.succ_pos m)
      simp [drop_matured, not_le.mpr hu]
  | succ k ih =>
    intro n p hk hlow hhigh
    cases n with
    | zero => omega
    | succ m =>
      have ht : t p ≤ u := by simpa using hlow 0 (Nat.succ_pos k)
      simp only [drop_matured, if_pos ht]
      have e := ih m (p + 1) (by omega)
        (fun i hi => by
          have h2 := hlow (i + 1) (by omega)
          rwa [show p + (i + 1) = p + 1 + i by omega] at h2)
        (fun hlt => by
          have h2 := hhigh (by omega)
          rwa [show p + (k + 1) = p + 1 + k by omega] at h2)
      rw [e]
      simp only [Prod.mk.injEq]
      omega

/-- C4: applying to_forwards after to_futures on the same grid and sigma
arrays reproduces the original rate sequence exactly, since the two
transforms add and subtract the same convexity adjustment per bucket. -/
theorem to_forwards_to_futures_roundtrip (n : ℕ) (t f sigma : ℕ → ℝ) :
    to_forwards n t (to_futures n t f sigma) sigma = f := by
  funext i
  by_cases h : i < n <;> simp [to_forwards, to_futures, h]

/-- C2: for u strictly between the knot before index k (time zero when k is
zero) and the knot at index k on a strictly increasing grid, advance_futures
drops exactly the first k buckets, returns n - k, and every surviving
bucket keeps its original grid time minus u. -/
theorem advance_futures_window (u : ℝ) (n k : ℕ) (t phi sigma : ℕ → ℝ)
    (alpha : ℝ) (g : ℕ → ℝ) (c : ℕ) (j : ℕ)
    (hk : k ≤ n)
    (hmono : ∀ i1 i2, i1 < i2 → i2 < n → t i1 < t i2)
    (hlow : (if k = 0 then (0 : ℝ) else t (k - 1)) < u)
    (hhigh : k < n → u < t k) :
    (advance_futures u n t phi sigma alpha g c).n = n - k ∧
    (advance_futures u n t phi sigma alpha g c).ptr = k ∧
    (k ≤ j → j < n → (advance_futures u n t phi sigma alpha g c).t j = t j - u) := by
  have hdrop : drop_matured u t n 0 = (n - k, 0 + k) := by
    apply drop_matured_spec
    · exact hk
    · intro i hi
      have hk0 : k ≠ 0 := by omega
      rw [if_neg hk0] at hlow
      rcases Nat.lt_or_ge i (k - 1) with hlt | hge
      · have h2 := hmono i (k - 1) hlt (by omega)
        simp only [Nat.zero_add]
        linarith
      · have hieq : i = k - 1 := by omega
        subst hieq
        simp only [Nat.zero_add]
        linarith
    · intro hkn
      simpa using hhigh hkn
  rw [advance_futures_eq]
  simp only [hdrop, Nat.zero_add]
  refine ⟨trivial, trivial, ?_⟩
  intro h1 h2
  have hcond : k ≤ j ∧ j < k + (n - k) := by omega
  simp only [if_pos hcond]

/-- C2 witness: on the grid 1, 2 with u = 3/2 exactly one bucket is dropped,
one survives, and the survivor keeps its time minus u. -/
theorem advance_futures_window_witness :
    (advance_futures (3 / 2) 2 tW zeroW zeroW 0 zeroW 0).n = 2 - 1 ∧
    (advance_futures (3 / 2) 2 tW zeroW zeroW 0 zeroW 0).ptr = 1 ∧
    (1 ≤ 1 → 1 < 2 →
      (advance_futures (3 / 2) 2 tW zeroW zeroW 0 zeroW 0).t 1 = tW 1 - 3 / 2) := by
  refine advance_futures_window (3 / 2) 2 1 tW zeroW zeroW 0 zeroW 0 1
    (by norm_num) ?_ ?_ ?_
  · intro i1 i2 h1 _
    have hcast : (i1 : ℝ) < (i2 : ℝ) := by exact_mod_cast h1
    simp only [tW]
    linarith
  · norm_num [tW]
  · intro _
    norm_num [tW]

/-- C5: if every sigma entry is zero, advance_futures leaves the whole rate
array unchanged, for every target time, curve and draw stream. -/
theorem advance_futures_zero_vol (u : ℝ) (n : ℕ) (t phi sigma : ℕ → ℝ)
    (alpha : ℝ) (g : ℕ → ℝ) (c : ℕ) (hs : sigma = fun _ => 0) :
    (advance_futures u n t phi sigma alpha g c).phi = phi := by
  subst hs
  funext j
  rw [advance_futures_eq]
  simp

/-- C5 witness: a concrete zero volatility curve keeps its rates. -/
theorem advance_futures_zero_vol_witness :
    ((fun _ : ℕ => (0 : ℝ)) = fun _ => (0 : ℝ)) ∧
    (advance_futures 1 2 tW oneW (fun _ => 0) 0 gW 0).phi = oneW :=
  ⟨rfl, advance_futures_zero_vol 1 2 tW oneW (fun _ => 0) 0 gW 0 rfl⟩

/-- C8: every advance_futures call advances the random cursor by exactly
two, for every n and u; each surviving bucket is scaled using the same two
draws, the values at the cursor and right after it; and with n equal to
zero the call returns zero and leaves both arrays unchanged. -/
theorem advance_futures_draws (u : ℝ) (n : ℕ) (t phi sigma : ℕ → ℝ)
    (alpha : ℝ) (g : ℕ → ℝ) (c : ℕ) :
    (advance_futures u n t phi sigma alpha g c).rng = c + 2 ∧
    (advance_futures u n t phi sigma alpha g c).phi = (fun j =>
      if (advance_futures u n t phi sigma alpha g c).ptr ≤ j ∧
          j < (advance_futures u n t phi sigma alpha g c).ptr
            + (advance_futures u n t phi sigma alpha g c).n then
        phi j * Real.exp (sigma j * Bu alpha (g c) (g (c + 1)) (t j - u)
          - sigma j * sigma j * u / 2)
      else phi j) ∧
    (advance_futures u 0 t phi sigma alpha g c).n = 0 ∧
    (advance_futures u 0 t phi sigma alpha g c).t = t ∧
    (advance_futures u 0 t phi sigma alpha g c).phi = phi := by
  refine ⟨rfl, rfl, rfl, ?_, ?_⟩
  · funext j
    rw [advance_futures_eq]
    simp [drop_matured]
  · funext j
    rw [advance_futures_eq]
    simp [drop_matured]

/-- C10: advance_futures never modifies the sigma array; the backing
storage of every dropped bucket, before the returned view, is unchanged;
and the returned view is the contiguous suffix whose pointer advance equals
the original n minus the returned count. -/
theorem advance_futures_frame (u : ℝ) (n : ℕ) (t phi sigma : ℕ → ℝ)
    (alpha : ℝ) (g : ℕ → ℝ) (c : ℕ) (j : ℕ) :
    (advance_futures u n t phi sigma alpha g c).sigma = sigma ∧
    (advance_futures u n t phi sigma alpha g c).ptr
      = n - (advance_futures u n t phi sigma alpha g c).n ∧
    (j < (advance_futures u n t phi sigma alpha g c).ptr →
      (advance_futures u n t phi sigma alpha g c).t j = t j ∧
      (advance_futures u n t phi sigma alpha g c).phi j = phi j) := by
  rw [advance_futures_eq]
  refine ⟨rfl, ?_, ?_⟩
  · simpa using drop_matured_ptr u t n 0
  · intro hj
    have hcond : ¬ ((drop_matured u t n 0).2 ≤ j ∧
        j < (drop_matured u t n 0).2 + (drop_matured u t n 0).1) := by
      simp only [AdvResult.ptr] at hj
      omega
    constructor <;> simp only [if_neg hcond]

/-- C10 witness: on the grid 1, 2 with u = 3/2 the first bucket is dropped
and its backing storage is untouched, sigma is unchanged, and the pointer
advance is the original length minus the returned count. -/
theorem advance_futures_frame_witness :
    (advance_futures (3 / 2) 2 tW oneW fW 0 gW 0).sigma = fW ∧
    (advance_futures (3 / 2) 2 tW oneW fW 0 gW 0).ptr
      = 2 - (advance_futures (3 / 2) 2 tW oneW fW 0 gW 0).n ∧
    (0 < (advance_futures (3 / 2) 2 tW oneW fW 0 gW 0).ptr →
      (advance_futures (3 / 2) 2 tW oneW fW 0 gW 0).t 0 = tW 0 ∧
      (advance_futures (3 / 2) 2 tW oneW fW 0 gW 0).phi 0 = oneW 0) :=
  advance_futures_frame (3 / 2) 2 tW oneW fW 0 gW 0 0

/-- C6 counterexample: with u = 0, a strictly positive grid, unit sigma,
alpha = 0 and first draw 1, the evolve pass multiplies the first surviving
rate by exp 1, so it is not a no-op on the rates. -/
theorem advance_futures_u0_not_noop :
    (advance_futures 0 1 tW oneW oneW 0 gW 0).phi 0 ≠ oneW 0 := by
  rw [advance_futures_eq]
  have hdrop : drop_matured (0 : ℝ) tW 1 0 = (1, 0) := by
    norm_num [drop_matured, tW]
  simp only [hdrop]
  norm_num [tW, oneW, gW, Bu]

/-- C6 (amended): with u = 0 and all knot times positive, advance_futures
drops no buckets and leaves every grid time unchanged; the decay term of
the evolve pass vanishes, but each surviving rate is still multiplied by
the diffusion factor exp(sigma[j] * Bu(alpha, B0, B1, t[j])), so the pass
is a no-op on the rates only when that exponent is zero. -/
theorem advance_futures_u0_step (n : ℕ) (t phi sigma : ℕ → ℝ) (alpha : ℝ)
    (g : ℕ → ℝ) (c : ℕ) (j : ℕ) (ht : ∀ i, i < n → 0 < t i) :
    (advance_futures 0 n t phi sigma alpha g c).n = n ∧
    (advance_futures 0 n t phi sigma alpha g c).ptr = 0 ∧
    (advance_futures 0 n t phi sigma alpha g c).t = t ∧
    (j < n → (advance_futures 0 n t phi sigma alpha g c).phi j
      = phi j * Real.exp (sigma j * Bu alpha (g c) (g (c + 1)) (t j))) := by
  have hdrop : drop_matured (0 : ℝ) t n 0 = (n - 0, 0 + 0) := by
    apply drop_matured_spec
    · omega
    · intro i hi
      omega
    · intro hn
      simpa using ht 0 hn
  rw [advance_futures_eq]
  simp only [hdrop, Nat.zero_add, Nat.sub_zero]
  refine ⟨trivial, trivial, ?_, ?_⟩
  · funext i
    by_cases h : 0 ≤ i ∧ i < n <;> simp [h]
  · intro hj
    have hcond : 0 ≤ j ∧ j < n := ⟨Nat.zero_le j, hj⟩
    simp [hcond]

/-- C6 witness for the amended claim: the concrete curve of the
counterexample satisfies the positivity hypothesis, keeps its length and
grid, and has its first rate multiplied by the diffusion factor. -/
theorem advance_futures_u0_step_witness :
    (∀ i, i < 1 → 0 < tW i) ∧
    ((advance_futures 0 1 tW oneW oneW 0 gW 0).n = 1 ∧
     (advance_futures 0 1 tW oneW oneW 0 gW 0).ptr = 0 ∧
     (advance_futures 0 1 tW oneW oneW 0 gW 0).t = tW ∧
     (0 < 1 → (advance_futures 0 1 tW oneW oneW 0 gW 0).phi 0
       = oneW 0 * Real.exp (oneW 0 * Bu 0 (gW 0) (gW 1) (tW 0)))) := by
  have ht : ∀ i, i < 1 → 0 < tW i := by
    intro i hi
    have hi0 : i = 0 := by omega
    subst hi0
    norm_num [tW]
  exact ⟨ht, advance_futures_u0_step 1 tW oneW oneW 0 gW 0 0 ht⟩

theorem par_loop_eq (t f : ℕ → ℝ) :
    ∀ n, par_loop t f n = (D_spec t f n, annuity_spec t f n, knot_prev t n) := by
  intro n
  induction n with
  | zero => simp [par_loop, D_spec, annuity_spec, knot_prev]
  | succ m ih =>
    simp only [par_loop, ih, D_spec, annuity_spec, knot_prev,
      Finset.sum_range_succ]

/-- C3: par_coupon returns one minus the final bootstrapped discount factor,
divided by the accumulated annuity, exactly as the spec words them; and on
the two bucket example with knots 1, 2 and flat forwards at five percent it
returns the hand computed value. -/
theorem par_coupon_eq_spec (n : ℕ) (t f : ℕ → ℝ) :
    par_coupon n t f = (1 - D_spec t f n) / annuity_spec t f n ∧
    par_coupon 2 tW fW =
      (1 - Real.exp (-(0.05 : ℝ)) * Real.exp (-(0.05 : ℝ))) /
        (Real.exp (-(0.05 : ℝ)) + Real.exp (-(0.05 : ℝ)) * Real.exp (-(0.05 : ℝ))) := by
  constructor
  · rw [par_coupon, par_loop_eq]
  · rw [par_coupon, par_loop_eq]
    norm_num [D_spec, annuity_spec, knot_prev, tW, fW, Finset.sum_range_succ]

theorem D_spec_pos (t f : ℕ → ℝ) : ∀ j, 0 < D_spec t f j := by
  intro j
  induction j with
  | zero => norm_num [D_spec]
  | succ m ih =>
    simp only [D_spec]
    exact mul_pos ih (Real.exp_pos _)

/-- C7: with n = 0 the annuity accumulator is zero and par_coupon returns
the division of one minus one by zero; with n at least one on a strictly
increasing positive grid the annuity is strictly positive, so the division
is by a nonzero quantity. -/
theorem par_coupon_annuity (n : ℕ) (t f : ℕ → ℝ)
    (hn : 1 ≤ n) (h0 : 0 < t 0) (hmono : ∀ i, i + 1 < n → t i < t (i + 1)) :
    (par_loop t f 0).2.1 = 0 ∧
    par_coupon 0 t f = (1 - 1) / 0 ∧
    0 < (par_loop t f n).2.1 := by
  refine ⟨rfl, rfl, ?_⟩
  rw [par_loop_eq]
  show 0 < annuity_spec t f n
  rw [annuity_spec]
  apply Finset.sum_pos
  · intro i hi
    have hin : i < n := Finset.mem_range.mp hi
    apply mul_pos (D_spec_pos t f (i + 1))
    cases i with
    | zero => simpa [knot_prev] using h0
    | succ m =>
      have hlt := hmono m hin
      simp only [knot_prev]
      linarith
  · exact Finset.nonempty_range_iff.mpr (by omega)

/-- C7 witness: the two bucket curve with knots 1, 2 and flat forwards has
zero annuity at n = 0 and a strictly positive annuity at n = 2. -/
theorem par_coupon_annuity_witness :
    (par_loop tW fW 0).2.1 = 0 ∧
    par_coupon 0 tW fW = (1 - 1) / 0 ∧
    0 < (par_loop tW fW 2).2.1 := by
  refine par_coupon_annuity 2 tW fW (by norm_num) (by norm_num [tW]) ?_
  intro i hi
  have hi0 : i = 0 := by omega
  subst hi0
  norm_num [tW]

/-- C9: advance is exactly the spec sequence to_futures, advance_futures,
to_forwards on the surviving view; and advancing a zero volatility curve
with positive knot times to u = 0 and then pricing it with par_coupon
yields exactly the par coupon of the original curve. -/
theorem advance_compose_conserve (u : ℝ) (n : ℕ) (t f sigma : ℕ → ℝ)
    (alpha : ℝ) (g : ℕ → ℝ) (c : ℕ) (ht : ∀ i, i < n → 0 < t i) :
    advance u n t f sigma alpha g c = advance_spec u n t f sigma alpha g c ∧
    par_coupon (advance 0 n t f (fun _ => 0) alpha g c).n
        (view (advance 0 n t f (fun _ => 0) alpha g c).ptr
          (advance 0 n t f (fun _ => 0) alpha g c).t)
        (view (advance 0 n t f (fun _ => 0) alpha g c).ptr
          (advance 0 n t f (fun _ => 0) alpha g c).phi)
      = par_coupon n t f := by
  constructor
  · rfl
  · have hdrop : drop_matured (0 : ℝ) t n 0 = (n - 0, 0 + 0) := by
      apply drop_matured_spec
      · omega
      · intro i hi
        omega
      · intro hn
        simpa using ht 0 hn
    have hn2 : (advance 0 n t f (fun _ => 0) alpha g c).n = n := by
      simp [advance, advance_futures_eq, hdrop]
    have hteq : view (advance 0 n t f (fun _ => 0) alpha g c).ptr
        (advance 0 n t f (fun _ => 0) alpha g c).t = t := by
      funext i
      by_cases h : i < n <;>
        simp [advance, advance_futures_eq, hdrop, view, h]
    have hfeq : view (advance 0 n t f (fun _ => 0) alpha g c).ptr
        (advance 0 n t f (fun _ => 0) alpha g c).phi = f := by
      funext i
      by_cases h : i < n <;>
        simp [advance, advance_futures_eq, hdrop, view, to_forwards,
          to_futures, h]
    rw [hn2, hteq, hfeq]

/-- C9 witness: a concrete one bucket curve satisfies the positivity
hypothesis, the composition equation, and the pricing conservation. -/
theorem advance_compose_conserve_witness :
    (∀ i, i < 1 → 0 < tW i) ∧
    (advance 1 1 tW fW oneW 0 gW 0 = advance_spec 1 1 tW fW oneW 0 gW 0 ∧
     par_coupon (advance 0 1 tW fW (fun _ => 0) 0 gW 0).n
         (view (advance 0 1 tW fW (fun _ => 0) 0 gW 0).ptr
           (advance 0 1 tW fW (fun _ => 0) 0 gW 0).t)
         (view (advance 0 1 tW fW (fun _ => 0) 0 gW 0).ptr
           (advance 0 1 tW fW (fun _ => 0) 0 gW 0).phi)
       = par_coupon 1 tW fW) := by
  have ht : ∀ i, i < 1 → 0 < tW i := by
    intro i hi
    have hi0 : i = 0 := by omega
    subst hi0
    norm_num [tW]
  exact ⟨ht, advance_compose_conserve 1 1 tW fW oneW 0 gW 0 ht⟩

theorem gauss_norm : ∫ x : ℝ, Real.exp (-(x ^ 2) / 2) = Real.sqrt (2 * Real.pi) := by
  have h : (∫ x : ℝ, Real.exp (-(x ^ 2) / 2))
      = ∫ x : ℝ, Real.exp (-(1 / 2 : ℝ) * x ^ 2) := by
    congr 1
    funext x
    congr 1
    ring
  rw [h, integral_gaussian]
  have h2 : Real.pi / (1 / 2 : ℝ) = 2 * Real.pi := by ring
  rw [h2]

theorem gauss_shift (c d : ℝ) :
    ∫ x : ℝ, Real.exp (c * x + d) * Real.exp (-(x ^ 2) / 2)
      = Real.exp (c ^ 2 / 2 + d) * Real.sqrt (2 * Real.pi) := by
  have key : (∫ x : ℝ, Real.exp (c * x + d) * Real.exp (-(x ^ 2) / 2))
      = ∫ x : ℝ, Real.exp (c ^ 2 / 2 + d) * Real.exp (-((x - c) ^ 2) / 2) := by
    congr 1
    funext x
    rw [← Real.exp_add, ← Real.exp_add]
    congr 1
    ring
  have hshift : (∫ x : ℝ, Real.exp (-((x - c) ^ 2) / 2))
      = ∫ x : ℝ, Real.exp (-(x ^ 2) / 2) :=
    integral_sub_right_eq_self (fun z => Real.exp (-(z ^ 2) / 2)) c
  rw [key, integral_mul_left, hshift, gauss_norm]

theorem sqrt_two_pi_pos : 0 < Real.sqrt (2 * Real.pi) :=
  Real.sqrt_pos.mpr (by positivity)

theorem std_normal_E_const (a : ℝ) : std_normal_E (fun _ => a) = a := by
  simp only [std_normal_E]
  rw [integral_mul_left, gauss_norm, mul_div_assoc,
    div_self (ne_of_gt sqrt_two_pi_pos), mul_one]

theorem std_normal_E_exp_linear (c d : ℝ) :
    std_normal_E (fun x => Real.exp (c * x + d)) = Real.exp (c ^ 2 / 2 + d) := by
  simp only [std_normal_E]
  rw [gauss_shift, mul_div_assoc, div_self (ne_of_gt sqrt_two_pi_pos), mul_one]

/-- C1: the martingale claim fails on the code.  At u = 1/2 on the curve
with one bucket at knot time 1, unit rate, unit sigma and alpha = 0, the
expectation of the surviving rate after advance_futures over the two
standard normal draws is exp(1/4), not the rate 1 held before the call:
the code draws unit variance normals whatever u is, so the decay term
sigma^2 * u / 2 does not offset the diffusion variance sigma^2 / 2. -/
theorem advance_futures_not_martingale :
    std_normal_E2 (fun x y =>
      (advance_futures (1 / 2) 1 oneW oneW oneW 0 (draws2 x y) 0).phi 0)
      = Real.exp (1 / 4) ∧ Real.exp (1 / 4) ≠ oneW 0 := by
  constructor
  · have hpt : (fun x y : ℝ =>
        (advance_futures (1 / 2) 1 oneW oneW oneW 0 (draws2 x y) 0).phi 0)
        = fun x _ : ℝ => Real.exp (1 * x + -(1 / 4 : ℝ)) := by
      funext x y
      rw [advance_futures_eq]
      have hdrop : drop_matured (1 / 2 : ℝ) oneW 1 0 = (1, 0) := by
        norm_num [drop_matured, oneW]
      simp only [hdrop]
      norm_num [oneW, draws2, Bu]
      ring
    rw [hpt]
    simp only [std_normal_E2]
    have hin : (fun x : ℝ => std_normal_E (fun _ : ℝ => Real.exp (1 * x + -(1 / 4 : ℝ))))
        = fun x : ℝ => Real.exp (1 * x + -(1 / 4 : ℝ)) := by
      funext x
      exact std_normal_E_const _
    rw [hin, std_normal_E_exp_linear]
    congr 1
    norm_num
  · simp only [oneW]
    have h1 : (1 : ℝ) < Real.exp (1 / 4) := Real.one_lt_exp_iff.mpr (by norm_num)
    exact ne_of_gt h1

end lmm
end fms
